import Mathlib

/-
Shallow embedding of the FileRenamer renaming engine (src/1.0.1.py).

Filenames are lists of characters, file contents lists of byte values, and
a directory is an association list from name to content.  The engine's pure
helpers (clean_filename, remove_date_prefix, has_valid_date_prefix,
handle_filename_conflict, calculate_file_hash, check_duplicate_file) are
translated function by function; the two per-file pipelines
(rename_file_with_date, restore_original_name) are translated as state
passing over the directory, with the Python try/except modelled by Except:
the core returns .error (reason, directory at raise time) and the wrapper
converts that into the Failed outcome, exactly as the except handler does.

Library code that is not in the repository is modelled from the spec and
marked so in its doc comment: strftime date formatting and hashlib.md5.
Identifiers that the source spells with the word "prefix" are abbreviated
to "pfx" here (remove_date_pfx is the source's remove_date_prefix, and so
on); everything else keeps the source's names.
-/

abbrev FName := List Char

abbrev FContent := List Nat

abbrev Dir := List (FName × FContent)

abbrev Tbl := List (FName × Nat)

/-- The calendar date a file timestamp formats to (year, month, day). -/
structure DateT where
  year : Nat
  month : Nat
  day : Nat
  deriving DecidableEq

/-- RenameOutcome: the structured result of one per-file operation, read off
the progress messages the source emits ([已有] alreadyCorrect, [成功] renamed,
[重复] duplicateRemoved, [跳过] skippedConflict / skippedNotEligible,
[错误] failed). -/
inductive Outcome where
  | alreadyCorrect : Outcome
  | renamed : FName → FName → Outcome
  | duplicateRemoved : FName → Outcome
  | skippedConflict : FName → Outcome
  | skippedNotEligible : Outcome
  | failed : List Char → Outcome
  deriving DecidableEq

/-- The character class of FileRenamer.clean_filename. -/
def isIllegalChar (c : Char) : Bool :=
  c == '\\' || c == '/' || c == '*' || c == '?' || c == ':' ||
  c == '\"' || c == '<' || c == '>' || c == '|'

/-- FileRenamer.clean_filename: re.sub replacing every illegal character
with an underscore. -/
def clean_filename (l : FName) : FName :=
  l.map fun c => if isIllegalChar c then '_' else c

/-- Decimal digits of n, most significant first; fuel-driven so that the
kernel can evaluate it (fuel n suffices, one unit per digit). -/
def decimalReprAux : Nat → Nat → List Char
  | 0, _ => []
  | fuel + 1, n => if n = 0 then [] else decimalReprAux fuel (n / 10) ++ [Nat.digitChar (n % 10)]

/-- Decimal rendering of a Nat, as Python str() renders an int. -/
def decimalRepr (n : Nat) : List Char :=
  if n = 0 then ['0'] else decimalReprAux n n

/-- Left zero-padding to width w, as strftime's %Y / %m / %d pad. -/
def padNum (w n : Nat) : List Char :=
  List.replicate (w - (decimalRepr n).length) '0' ++ decimalRepr n

/-- Modelled from the spec: datetime.fromtimestamp + strftime("%Y-%m-%d")
(library code, not in the repository) yield the local calendar date,
zero-padded; a timestamp is modelled by that date.  The date prefix is the
formatted date plus one trailing space. -/
def datePfxOf (t : DateT) : List Char :=
  padNum 4 t.year ++ '-' :: (padNum 2 t.month ++ '-' :: (padNum 2 t.day ++ [' ']))

/-- The anchored pattern of remove_date_prefix, r"^\d{4}-\d{2}-\d{2} ":
some rest when the first 11 characters match, none otherwise. -/
def matchDatePfx : List Char → Option (List Char)
  | a :: b :: c :: d :: s1 :: e :: f :: s2 :: g :: h :: s3 :: rest =>
    if a.isDigit && b.isDigit && c.isDigit && d.isDigit && s1 == '-' &&
       e.isDigit && f.isDigit && s2 == '-' && g.isDigit && h.isDigit && s3 == ' ' then
      some rest
    else none
  | _ => none

/-- FileRenamer.remove_date_prefix: re.sub(r"^\d{4}-\d{2}-\d{2} ", "", file)
removes at most one leading date prefix (the pattern is anchored). -/
def remove_date_pfx (l : FName) : FName := (matchDatePfx l).getD l

/-- FileRenamer.remove_yy_mm_dd_prefix: same substitution as remove_date_prefix. -/
def remove_yy_mm_dd_pfx (l : FName) : FName := (matchDatePfx l).getD l

/-- FileRenamer.has_yy_mm_dd_prefix: the cleaned name matches the date pattern. -/
def has_yy_mm_dd_pfx (file : FName) : Bool := (matchDatePfx (clean_filename file)).isSome

/-- FileRenamer.has_valid_date_prefix: clean_filename(file).startswith(date_prefix). -/
def has_valid_date_pfx (file dpfx : FName) : Bool := dpfx.isPrefixOf (clean_filename file)

/-- True when c is not a dot (the predicate splitext scans with). -/
def notDot (c : Char) : Bool := !(c == '.')

/-- os.path.splitext on a base name (CPython genericpath._splitext with no
directory separator): split at the last dot, unless every character before
the last dot is itself a dot, in which case the extension is empty.  The
head the second arm drops is the last dot itself. -/
def splitext (p : FName) : FName × FName :=
  match (p.reverse).dropWhile notDot, (p.reverse).takeWhile notDot with
  | [], _ => (p, [])
  | _ :: v, u => if v.any notDot then (v.reverse, '.' :: u.reverse) else (p, [])

/-- The candidate name f"{base_name_without_ext}_{conflict_count}{file_ext}". -/
def cand (stem ext : List Char) (n : Nat) : FName :=
  stem ++ '_' :: (decimalRepr n ++ ext)

def tblLookup : Tbl → FName → Option Nat
  | [], _ => none
  | (k, v) :: r, n => if k = n then some v else tblLookup r n

/-- Python dict assignment conflict_files[base_name] = conflict_count. -/
def tblInsert : Tbl → FName → Nat → Tbl
  | [], k, v => [(k, v)]
  | (k', v') :: r, k, v => if k' = k then (k, v) :: r else (k', v') :: tblInsert r k v

/-- The while-loop of FileRenamer.handle_filename_conflict.  fs is the list of
names existing in the directory (os.path.exists).  The loop has no bound in
the source; fuel only bounds the unrolling here, and none means the loop has
not finished within fuel checks — conflictLoop_total shows fuel
fs.length + 2 always suffices. -/
def conflictLoop : Nat → List FName → List Char → List Char → FName → Nat → FName → Tbl →
    Option (FName × Tbl)
  | 0, _, _, _, _, _, _, _ => none
  | fuel + 1, fs, stem, ext, p, c, base, tbl =>
    if p ∈ fs then
      conflictLoop fuel fs stem ext (cand stem ext (c + 1)) (c + 1) base
        (tblInsert tbl base (c + 1))
    else some (p, tbl)

/-- FileRenamer.handle_filename_conflict: splitext the desired base name once,
start from the counter stored for it in conflict_files (0 when absent), and
retry candidates while the current path exists. -/
def handle_filename_conflict (fs : List FName) (new_path : FName) (conflict_files : Tbl) :
    Option (FName × Tbl) :=
  conflictLoop (fs.length + 2) fs (splitext new_path).1 (splitext new_path).2 new_path
    ((tblLookup conflict_files new_path).getD 0) new_path conflict_files

/-- Modelled from the spec: the ConflictResolver with the configured maximum
attempt count the spec prescribes; none models the ConflictExhausted failure.
The source resolver has no such cap (compare handle_filename_conflict). -/
def resolveSpecAux (fs : List FName) (stem ext : List Char) : Nat → Nat → FName → Option FName
  | 0, _, p => if p ∈ fs then none else some p
  | a + 1, c, p =>
    if p ∈ fs then resolveSpecAux fs stem ext a (c + 1) (cand stem ext (c + 1)) else some p

/-- Modelled from the spec: resolve(desiredPath) with a maximum attempt count. -/
def resolveSpec (maxAttempts : Nat) (fs : List FName) (name : FName) : Option FName :=
  resolveSpecAux fs (splitext name).1 (splitext name).2 maxAttempts 0 name

def lookupD : Dir → FName → Option FContent
  | [], _ => none
  | (k, c) :: r, n => if k = n then some c else lookupD r n

def fsNames (dir : Dir) : List FName := dir.map fun e => e.1

/-- os.path.exists restricted to the directory under operation. -/
def pathExists (dir : Dir) (n : FName) : Bool := decide (n ∈ fsNames dir)

/-- os.remove. -/
def eraseFile (dir : Dir) (n : FName) : Dir := dir.filter fun e => decide (e.1 ≠ n)

def errNoFile : List Char := ['n', 'o', ' ', 's', 'u', 'c', 'h', ' ', 'f', 'i', 'l', 'e']

def errNoTime : List Char := ['n', 'o', ' ', 't', 'i', 'm', 'e', 's', 't', 'a', 'm', 'p']

/-- os.rename: fails when the source is missing, moves its content to dst
(replacing a dst entry when one exists). -/
def fsRename (dir : Dir) (src dst : FName) : Except (List Char) Dir :=
  match lookupD dir src with
  | none => .error errNoFile
  | some c => .ok (eraseFile (eraseFile dir src) dst ++ [(dst, c)])

/-- The 64 KiB read loop of FileRenamer.calculate_file_hash: one fuel unit per
block of up to 65536 bytes fed to the hasher. -/
def hashLoop : Nat → FContent → FContent → FContent
  | 0, _, acc => acc
  | _ + 1, [], acc => acc
  | fuel + 1, x :: rest, acc => hashLoop fuel (rest.drop 65535) (acc ++ x :: rest.take 65535)

/-- FileRenamer.calculate_file_hash.  Modelled from the spec: hashlib.md5
(library code, not in the repository) is a deterministic digest of the bytes
streamed through update; the digest value is modelled as the accumulated
stream itself, which preserves exactly the property used by the code: equal
byte streams give equal digests. -/
def calculate_file_hash (content : FContent) : FContent :=
  hashLoop (content.length + 1) content []

/-- os.path.getsize: raises on a missing file. -/
def getFileSize (dir : Dir) (n : FName) : Except (List Char) Nat :=
  match lookupD dir n with
  | some c => .ok c.length
  | none => .error errNoFile

/-- calculate_file_hash applied to a path: open(filepath) raises on a missing file. -/
def fileHash (dir : Dir) (n : FName) : Except (List Char) FContent :=
  match lookupD dir n with
  | some c => .ok (calculate_file_hash c)
  | none => .error errNoFile

/-- FileRenamer.check_duplicate_file: compare sizes first and return False on a
mismatch; only when the sizes agree compare the two content digests. -/
def check_duplicate_file (dir : Dir) (a b : FName) : Except (List Char) Bool :=
  match getFileSize dir a with
  | .error e => .error e
  | .ok sa =>
    match getFileSize dir b with
    | .error e => .error e
    | .ok sb =>
      if sa ≠ sb then .ok false
      else
        match fileHash dir a with
        | .error e => .error e
        | .ok ha =>
          match fileHash dir b with
          | .error e => .error e
          | .ok hb => .ok (decide (ha = hb))

/-- FileRenamer.get_file_time: os.path.getctime / os.path.getmtime raise on a
missing file, and may be unable to supply a timestamp; the configured time
kind is abstracted into the timestamp map ts. -/
def get_file_time (ts : FName → Option DateT) (dir : Dir) (name : FName) :
    Except (List Char) DateT :=
  match lookupD dir name with
  | none => .error errNoFile
  | some _ =>
    match ts name with
    | some t => .ok t
    | none => .error errNoTime

/-- Body of the try block of FileRenamer.rename_file_with_date, line for line;
errors carry the directory state at raise time. -/
def renameCore (ts : FName → Option DateT) (dir : Dir) (file_path : FName) :
    Except (List Char × Dir) (Outcome × Dir) :=
  match get_file_time ts dir file_path with
  | .error e => .error (e, dir)
  | .ok t =>
    let date_pfx := datePfxOf t
    let original_name := file_path
    let cleaned_name := clean_filename original_name
    let name_without_pfx := remove_date_pfx cleaned_name
    let new_name := date_pfx ++ name_without_pfx
    if has_valid_date_pfx name_without_pfx date_pfx then
      .ok (.alreadyCorrect, dir)
    else
      match handle_filename_conflict (fsNames dir) new_name [] with
      | none => .error (errNoFile, dir)
      | some (new_path, _conflict_files) =>
        if pathExists dir new_path then
          match check_duplicate_file dir file_path new_path with
          | .error e => .error (e, dir)
          | .ok true =>
            let dir1 := eraseFile dir new_path
            match fsRename dir1 file_path new_path with
            | .error e => .error (e, dir1)
            | .ok dir2 => .ok (.duplicateRemoved new_path, dir2)
          | .ok false => .ok (.skippedConflict new_path, dir)
        else
          match fsRename dir file_path new_path with
          | .error e => .error (e, dir)
          | .ok dir2 => .ok (.renamed original_name new_path, dir2)

/-- FileRenamer.rename_file_with_date: the try/except wrapper — any raised
error becomes the Failed outcome at the directory state of the raise. -/
def rename_file_with_date (ts : FName → Option DateT) (dir : Dir) (file_path : FName) :
    Outcome × Dir :=
  match renameCore ts dir file_path with
  | .ok r => r
  | .error (e, d) => (.failed e, d)

/-- Body of the try block of FileRenamer.restore_original_name. -/
def restoreCore (dir : Dir) (file_path : FName) : Except (List Char × Dir) (Outcome × Dir) :=
  let original_name := file_path
  let cleaned_name := clean_filename original_name
  if !(has_yy_mm_dd_pfx cleaned_name) then
    .ok (.skippedNotEligible, dir)
  else
    let new_name := remove_yy_mm_dd_pfx cleaned_name
    match handle_filename_conflict (fsNames dir) new_name [] with
    | none => .error (errNoFile, dir)
    | some (new_path, _conflict_files) =>
      if pathExists dir new_path then
        match check_duplicate_file dir file_path new_path with
        | .error e => .error (e, dir)
        | .ok true =>
          let dir1 := eraseFile dir new_path
          match fsRename dir1 file_path new_path with
          | .error e => .error (e, dir1)
          | .ok dir2 => .ok (.duplicateRemoved new_path, dir2)
        | .ok false => .ok (.skippedConflict new_path, dir)
      else
        match fsRename dir file_path new_path with
        | .error e => .error (e, dir)
        | .ok dir2 => .ok (.renamed original_name new_path, dir2)

/-- FileRenamer.restore_original_name: the try/except wrapper. -/
def restore_original_name (dir : Dir) (file_path : FName) : Outcome × Dir :=
  match restoreCore dir file_path with
  | .ok r => r
  | .error (e, d) => (.failed e, d)

/-- RenamingWorker.run in add-prefix mode: every discovered file is dispatched
to rename_file_with_date; the worker pool is modelled by sequential
processing, one outcome per file. -/
def processAll (ts : FName → Option DateT) : Dir → List FName → List Outcome × Dir
  | dir, [] => ([], dir)
  | dir, f :: rest =>
    let r := rename_file_with_date ts dir f
    let rs := processAll ts r.2 rest
    (r.1 :: rs.1, rs.2)

/-- The spec's buildPrefixedName: strip an existing date prefix from the base
name, then concatenate the freshly formatted prefix (source lines 154–156). -/
def buildPfxName (n : FName) (t : DateT) : FName :=
  datePfxOf t ++ remove_date_pfx n

def nReport : FName := ['r', 'e', 'p', 'o', 'r', 't', '.', 't', 'x', 't']

def datePart : List Char := ['2', '0', '2', '4', '-', '0', '3', '-', '0', '5', ' ']

def nPrefixed : FName := datePart ++ nReport

def nPrefixed1 : FName :=
  ['2', '0', '2', '4', '-', '0', '3', '-', '0', '5', ' ',
   'r', 'e', 'p', 'o', 'r', 't', '_', '1', '.', 't', 'x', 't']

def tsMar5 : FName → Option DateT := fun _ => some ⟨2024, 3, 5⟩

def dirC1 : Dir := [(nPrefixed, [1, 2, 3])]

def dirC2 : Dir := [(nReport, [1, 2, 3]), (nPrefixed, [1, 2, 3])]

def nA : FName := ['a', '.', 't', 'x', 't']

def nA1 : FName := ['a', '_', '1', '.', 't', 'x', 't']

def nA2 : FName := ['a', '_', '2', '.', 't', 'x', 't']

def nA3 : FName := ['a', '_', '3', '.', 't', 'x', 't']

def fsA : List FName := [nA, nA1, nA2]

def nQ : FName := datePart ++ ['a', '?', 'b', '.', 't', 'x', 't']

def nAB : FName := ['a', '_', 'b', '.', 't', 'x', 't']

def nBPrefixed : FName :=
  ['2', '0', '2', '4', '-', '0', '1', '-', '0', '1', ' ', 'b', '.', 't', 'x', 't']

def nX : FName :=
  ['2', '0', '2', '4', '-', '0', '1', '-', '0', '2', ' ', 'x', '.', 't', 'x', 't']

def tsNone : FName → Option DateT := fun _ => none

def dirC6 : Dir := [(nA, [1]), (nA1, [1, 2]), (nA2, [5, 6]), (nA3, [5, 6])]

def dirC8 : Dir := [(nReport, [1])]

def dirC10 : Dir := [(nQ, [7])]

deriving instance DecidableEq for Except

theorem clean_filename_char (c : Char) :
    isIllegalChar (if isIllegalChar c then '_' else c) = false := by
  cases h : isIllegalChar c
  · simp [h]
  · simp only [h, if_true]
    decide

theorem clean_char_idem (c : Char) :
    (if isIllegalChar (if isIllegalChar c then '_' else c) then '_'
      else if isIllegalChar c then '_' else c) =
      if isIllegalChar c then '_' else c := by
  simp [clean_filename_char c]

/-- C7: clean_filename replaces every illegal character, so its result contains
none of them, and it is idempotent. -/
theorem C7_sanitize_idempotent (x : FName) :
    (clean_filename x).all (fun c => !(isIllegalChar c)) = true ∧
      clean_filename (clean_filename x) = clean_filename x := by
  constructor
  · simp only [clean_filename, List.all_eq_true]
    intro c hc
    rcases List.mem_map.mp hc with ⟨a, _, rfl⟩
    simp [clean_filename_char a]
  · simp only [clean_filename, List.map_map, Function.comp]
    exact List.map_congr_left fun a _ => clean_char_idem a

theorem digitChar_isDigit {d : Nat} (h : d < 10) : (Nat.digitChar d).isDigit = true := by
  have all10 : ∀ x : Fin 10, (Nat.digitChar x.1).isDigit = true := by decide
  exact all10 ⟨d, h⟩

theorem digitChar_inj_lt {a b : Nat} (ha : a < 10) (hb : b < 10)
    (h : Nat.digitChar a = Nat.digitChar b) : a = b := by
  have all10 : ∀ x y : Fin 10, Nat.digitChar x.1 = Nat.digitChar y.1 → x = y := by decide
  exact congrArg Fin.val (all10 ⟨a, ha⟩ ⟨b, hb⟩ h)

theorem decimalReprAux_eq : ∀ fuel n, n ≤ fuel →
    decimalReprAux fuel n = ((Nat.digits 10 n).map Nat.digitChar).reverse := by
  intro fuel
  induction fuel with
  | zero =>
    intro n hn
    interval_cases n
    simp [decimalReprAux]
  | succ fuel ih =>
    intro n hn
    by_cases h0 : n = 0
    · subst h0; simp [decimalReprAux]
    · have hpos : 0 < n := Nat.pos_of_ne_zero h0
      have hdiv : n / 10 < n := Nat.div_lt_self hpos (by norm_num)
      rw [decimalReprAux, if_neg h0, Nat.digits_def' (by norm_num : (1:ℕ) < 10) hpos,
        ih (n / 10) (by omega)]
      simp

theorem decimalRepr_eq (n : Nat) :
    decimalRepr n = if n = 0 then ['0'] else ((Nat.digits 10 n).map Nat.digitChar).reverse := by
  unfold decimalRepr
  by_cases h0 : n = 0
  · simp [h0]
  · simp only [if_neg h0]
    exact decimalReprAux_eq n n le_rfl

theorem decimalRepr_isDigit {n : Nat} : ∀ c ∈ decimalRepr n, c.isDigit = true := by
  intro c hc
  rw [decimalRepr_eq] at hc
  by_cases h0 : n = 0
  · rw [if_pos h0] at hc
    simp only [List.mem_singleton] at hc
    subst hc
    decide
  · rw [if_neg h0, List.mem_reverse, List.mem_map] at hc
    rcases hc with ⟨d, hd, rfl⟩
    exact digitChar_isDigit (Nat.digits_lt_base (by norm_num) hd)

theorem decimalRepr_len_le {n w : Nat} (hw : 1 ≤ w) (h : n < 10 ^ w) :
    (decimalRepr n).length ≤ w := by
  rw [decimalRepr_eq]
  by_cases h0 : n = 0
  · simpa [h0]
  · rw [if_neg h0]
    rw [List.length_reverse, List.length_map, Nat.digits_len 10 n (by norm_num) h0]
    have := (Nat.lt_pow_iff_log_lt (by norm_num) h0).mp h
    omega

theorem map_digitChar_inj : ∀ (l1 l2 : List Nat), (∀ x ∈ l1, x < 10) → (∀ x ∈ l2, x < 10) →
    l1.map Nat.digitChar = l2.map Nat.digitChar → l1 = l2 := by
  intro l1
  induction l1 with
  | nil =>
    intro l2 _ _ h
    cases l2 with
    | nil => rfl
    | cons y ys => simp at h
  | cons x xs ih =>
    intro l2 h1 h2 h
    cases l2 with
    | nil => simp at h
    | cons y ys =>
      simp only [List.map_cons, List.cons.injEq] at h
      have hx := digitChar_inj_lt (h1 x (by simp)) (h2 y (by simp)) h.1
      rw [hx, ih ys (fun z hz => h1 z (by simp [hz])) (fun z hz => h2 z (by simp [hz])) h.2]

theorem ofDigits_single_zero : Nat.ofDigits 10 [0] = 0 := by
  simp [Nat.ofDigits]

theorem decimalRepr_ne_zero_char {b : Nat} (hb : b ≠ 0) :
    ((Nat.digits 10 b).map Nat.digitChar).reverse ≠ ['0'] := by
  intro h
  have hm : (Nat.digits 10 b).map Nat.digitChar = ['0'] := by
    have := congrArg List.reverse h
    simpa using this
  rcases hd : Nat.digits 10 b with _ | ⟨d, ds⟩
  · rw [hd] at hm; simp at hm
  · rw [hd] at hm
    simp only [List.map_cons, List.cons.injEq] at hm
    have hds : ds = [] := by
      have := congrArg List.length hm.2
      simpa using this
    have hdlt : d < 10 := Nat.digits_lt_base (by norm_num) (by rw [hd]; simp)
    have hd0 : d = 0 := digitChar_inj_lt hdlt (by norm_num) hm.1
    have : b = 0 := by
      have hof := Nat.ofDigits_digits 10 b
      rw [hd, hds, hd0] at hof
      rw [← hof]
      exact ofDigits_single_zero
    exact hb this

theorem decimalRepr_inj : ∀ {a b : Nat}, decimalRepr a = decimalRepr b → a = b := by
  intro a b h
  rw [decimalRepr_eq, decimalRepr_eq] at h
  by_cases ha : a = 0 <;> by_cases hb : b = 0
  · omega
  · rw [if_pos ha, if_neg hb] at h
    exact absurd h.symm (decimalRepr_ne_zero_char hb)
  · rw [if_neg ha, if_pos hb] at h
    exact absurd h (decimalRepr_ne_zero_char ha)
  · rw [if_neg ha, if_neg hb] at h
    have h' : (Nat.digits 10 a).map Nat.digitChar = (Nat.digits 10 b).map Nat.digitChar :=
      List.reverse_injective h
    have hdig : Nat.digits 10 a = Nat.digits 10 b :=
      map_digitChar_inj _ _ (fun z hz => Nat.digits_lt_base (by norm_num) hz)
        (fun z hz => Nat.digits_lt_base (by norm_num) hz) h'
    have hofa := Nat.ofDigits_digits 10 a
    have hofb := Nat.ofDigits_digits 10 b
    rw [← hofa, ← hofb, hdig]

theorem padNum_isDigit {w n : Nat} : ∀ c ∈ padNum w n, c.isDigit = true := by
  intro c hc
  rcases List.mem_append.mp hc with hr | hd
  · rw [List.eq_of_mem_replicate hr]
    decide
  · exact decimalRepr_isDigit c hd

theorem padNum_length {w n : Nat} (h : (decimalRepr n).length ≤ w) :
    (padNum w n).length = w := by
  simp only [padNum, List.length_append, List.length_replicate]
  omega

theorem list_len_two {l : List Char} (h : l.length = 2) : ∃ a b, l = [a, b] := by
  rcases l with _ | ⟨a, l⟩
  · simp at h
  rcases l with _ | ⟨b, l⟩
  · simp at h
  rcases l with _ | ⟨c, l⟩
  · exact ⟨a, b, rfl⟩
  · simp at h

theorem list_len_four {l : List Char} (h : l.length = 4) : ∃ a b c d, l = [a, b, c, d] := by
  rcases l with _ | ⟨a, l⟩
  · simp at h
  rcases l with _ | ⟨b, l⟩
  · simp at h
  rcases l with _ | ⟨c, l⟩
  · simp at h
  rcases l with _ | ⟨d, l⟩
  · simp at h
  rcases l with _ | ⟨e, l⟩
  · exact ⟨a, b, c, d, rfl⟩
  · simp at h

theorem matchDatePfx_append {a b c d e f g h : Char} (s : List Char)
    (ha : a.isDigit = true) (hb : b.isDigit = true) (hc : c.isDigit = true)
    (hd : d.isDigit = true) (he : e.isDigit = true) (hf : f.isDigit = true)
    (hg : g.isDigit = true) (hh : h.isDigit = true) :
    matchDatePfx ([a, b, c, d, '-', e, f, '-', g, h, ' '] ++ s) = some s := by
  show matchDatePfx (a :: b :: c :: d :: '-' :: e :: f :: '-' :: g :: h :: ' ' :: s) = some s
  simp [matchDatePfx, ha, hb, hc, hd, he, hf, hg, hh]

theorem datePfxOf_decomp (t : DateT) (hy : t.year ≤ 9999) (hm : t.month ≤ 99)
    (hd : t.day ≤ 99) :
    ∃ a b c d e f g h : Char, datePfxOf t = [a, b, c, d, '-', e, f, '-', g, h, ' '] ∧
      a.isDigit = true ∧ b.isDigit = true ∧ c.isDigit = true ∧ d.isDigit = true ∧
      e.isDigit = true ∧ f.isDigit = true ∧ g.isDigit = true ∧ h.isDigit = true := by
  have hy4 : (padNum 4 t.year).length = 4 :=
    padNum_length (decimalRepr_len_le (by norm_num) (by norm_num; omega))
  have hm2 : (padNum 2 t.month).length = 2 :=
    padNum_length (decimalRepr_len_le (by norm_num) (by norm_num; omega))
  have hd2 : (padNum 2 t.day).length = 2 :=
    padNum_length (decimalRepr_len_le (by norm_num) (by norm_num; omega))
  obtain ⟨a, b, c, d, habcd⟩ := list_len_four hy4
  obtain ⟨e, f, hef⟩ := list_len_two hm2
  obtain ⟨g, h, hgh⟩ := list_len_two hd2
  refine ⟨a, b, c, d, e, f, g, h, ?_, ?_, ?_, ?_, ?_, ?_, ?_, ?_, ?_⟩
  · rw [datePfxOf, habcd, hef, hgh]
    simp
  · exact padNum_isDigit a (by rw [habcd]; simp)
  · exact padNum_isDigit b (by rw [habcd]; simp)
  · exact padNum_isDigit c (by rw [habcd]; simp)
  · exact padNum_isDigit d (by rw [habcd]; simp)
  · exact padNum_isDigit e (by rw [hef]; simp)
  · exact padNum_isDigit f (by rw [hef]; simp)
  · exact padNum_isDigit g (by rw [hgh]; simp)
  · exact padNum_isDigit h (by rw [hgh]; simp)

/-- C3: stripping the date prefix from buildPrefixedName(n, t) gives back the
stripped base name, for every base name and every timestamp whose formatted
date has 4-digit year and 2-digit month and day fields. -/
theorem C3_strip_build_inverse (n : FName) (t : DateT)
    (hy : t.year ≤ 9999) (hm : t.month ≤ 99) (hd : t.day ≤ 99) :
    remove_date_pfx (buildPfxName n t) = remove_date_pfx n := by
  obtain ⟨a, b, c, d, e, f, g, h, hpfx, ha, hb, hc, hd4, he, hf, hg, hh⟩ :=
    datePfxOf_decomp t hy hm hd
  show (matchDatePfx (buildPfxName n t)).getD (buildPfxName n t) = remove_date_pfx n
  rw [buildPfxName, hpfx, matchDatePfx_append _ ha hb hc hd4 he hf hg hh]
  rfl

/-- C3 witness at a concrete already-prefixed name and a concrete date. -/
theorem C3_strip_build_inverse_witness :
    2024 ≤ 9999 ∧ 3 ≤ 99 ∧ 5 ≤ 99 ∧
      remove_date_pfx (buildPfxName nX ⟨2024, 3, 5⟩) = remove_date_pfx nX :=
  ⟨by norm_num, by norm_num, by norm_num,
    C3_strip_build_inverse nX ⟨2024, 3, 5⟩ (by norm_num) (by norm_num) (by norm_num)⟩

theorem dropWhile_all_nil {p : Char → Bool} : ∀ {xs : List Char},
    (∀ x ∈ xs, p x = true) → xs.dropWhile p = []
  | [], _ => rfl
  | x :: xs, h => by
    rw [List.dropWhile_cons, if_pos (h x (by simp))]
    exact dropWhile_all_nil fun z hz => h z (by simp [hz])

theorem dropWhile_append_all {p : Char → Bool} {xs ys : List Char}
    (h : ∀ x ∈ xs, p x = true) : (xs ++ ys).dropWhile p = ys.dropWhile p := by
  rw [List.dropWhile_append, dropWhile_all_nil h]
  simp

theorem notDot_of_isDigit {c : Char} (h : c.isDigit = true) : notDot c = true := by
  by_cases hc : c = '.'
  · subst hc
    exact absurd h (by decide)
  · simp [notDot, hc]

theorem decimalRepr_notDot {n : Nat} : ∀ c ∈ decimalRepr n, notDot c = true :=
  fun c hc => notDot_of_isDigit (decimalRepr_isDigit c hc)

theorem splitext_of_nil {p : FName} (h : p.reverse.dropWhile notDot = []) :
    splitext p = (p, []) := by
  unfold splitext
  rw [h]

theorem splitext_of_all_dots {p : FName} {x : Char} {v : List Char}
    (h : p.reverse.dropWhile notDot = x :: v) (hv : v.any notDot = false) :
    splitext p = (p, []) := by
  unfold splitext
  rw [h]
  show (if v.any notDot = true then
      (v.reverse, '.' :: (p.reverse.takeWhile notDot).reverse) else (p, [])) = (p, [])
  rw [hv]
  simp

theorem splitext_of_dot {p : FName} {x : Char} {v : List Char}
    (h : p.reverse.dropWhile notDot = x :: v) (hv : v.any notDot = true) :
    splitext p = (v.reverse, '.' :: (p.reverse.takeWhile notDot).reverse) := by
  unfold splitext
  rw [h]
  show (if v.any notDot = true then
      (v.reverse, '.' :: (p.reverse.takeWhile notDot).reverse) else (p, [])) =
    (v.reverse, '.' :: (p.reverse.takeWhile notDot).reverse)
  rw [hv]
  simp

theorem splitext_cand' (p : FName) (n : Nat) (s e : List Char) (hse : splitext p = (s, e)) :
    splitext (s ++ '_' :: (decimalRepr n ++ e)) = (s ++ '_' :: decimalRepr n, e) := by
  have hdecu : ∀ c ∈ (decimalRepr n).reverse ++ ['_'], notDot c = true := by
    intro c hc
    rcases List.mem_append.mp hc with hc | hc
    · exact decimalRepr_notDot c (List.mem_reverse.mp hc)
    · simp only [List.mem_singleton] at hc
      subst hc
      decide
  rcases hdw : p.reverse.dropWhile notDot with _ | ⟨x, v⟩
  · -- p has no dot at all: extension of p is empty, and the candidate has no dot
    have hpe := splitext_of_nil hdw
    rw [hpe] at hse
    have hs : p = s := congrArg Prod.fst hse
    have he : ([] : List Char) = e := congrArg Prod.snd hse
    subst hs
    subst he
    rw [List.append_nil]
    apply splitext_of_nil
    rw [List.reverse_append, List.reverse_cons, dropWhile_append_all hdecu]
    exact hdw
  · by_cases hany : v.any notDot = true
    · -- p splits at its last dot
      have hpe := splitext_of_dot hdw hany
      rw [hpe] at hse
      have hs : v.reverse = s := congrArg Prod.fst hse
      have he : '.' :: (p.reverse.takeWhile notDot).reverse = e := congrArg Prod.snd hse
      subst hs
      subst he
      have hu : ∀ c ∈ p.reverse.takeWhile notDot, notDot c = true := fun c hc =>
        List.mem_takeWhile_imp hc
      have hq : (v.reverse ++
            '_' :: (decimalRepr n ++ '.' :: (p.reverse.takeWhile notDot).reverse)).reverse =
          p.reverse.takeWhile notDot ++ '.' :: ((decimalRepr n).reverse ++ '_' :: v) := by
        simp [List.reverse_append, List.reverse_cons, List.append_assoc]
      have hdrop : (v.reverse ++
            '_' :: (decimalRepr n ++ '.' :: (p.reverse.takeWhile notDot).reverse)).reverse.dropWhile
            notDot = '.' :: ((decimalRepr n).reverse ++ '_' :: v) := by
        rw [hq, dropWhile_append_all hu, List.dropWhile_cons, if_neg (by decide)]
      have hvany : ((decimalRepr n).reverse ++ '_' :: v).any notDot = true := by
        simp only [List.any_append, List.any_cons]
        have : notDot '_' = true := by decide
        simp [this]
      have htake : (v.reverse ++
            '_' :: (decimalRepr n ++ '.' :: (p.reverse.takeWhile notDot).reverse)).reverse.takeWhile
            notDot = p.reverse.takeWhile notDot := by
        rw [hq, List.takeWhile_append_of_pos hu, List.takeWhile_cons, if_neg (by decide)]
        simp
      rw [splitext_of_dot hdrop hvany, htake]
      simp [List.reverse_append, List.reverse_cons, List.append_assoc]
    · -- every character before p's last dot is a dot: extension is empty
      have hany' : v.any notDot = false := by
        cases hv : v.any notDot
        · rfl
        · exact absurd hv hany
      have hpe := splitext_of_all_dots hdw hany'
      rw [hpe] at hse
      have hs : p = s := congrArg Prod.fst hse
      have he : ([] : List Char) = e := congrArg Prod.snd hse
      subst hs
      subst he
      rw [List.append_nil]
      have hdrop : (p ++ '_' :: decimalRepr n).reverse.dropWhile notDot = x :: v := by
        rw [List.reverse_append, List.reverse_cons, dropWhile_append_all hdecu]
        exact hdw
      exact splitext_of_all_dots hdrop hany'

theorem cand_inj {stem ext : List Char} : Function.Injective (cand stem ext) := by
  intro m n h
  unfold cand at h
  have h1 := List.append_cancel_left h
  injection h1 with _ h2
  exact decimalRepr_inj (List.append_cancel_right h2)

theorem cand_free_exists (fs : List FName) (stem ext : List Char) (c : Nat) :
    ∃ k, 1 ≤ k ∧ k ≤ fs.length + 1 ∧ cand stem ext (c + k) ∉ fs := by
  by_contra hall
  push_neg at hall
  have hinj : Function.Injective fun i : Nat => cand stem ext (c + 1 + i) := by
    intro i j hij
    have := cand_inj hij
    omega
  have hsub : (Finset.range (fs.length + 1)).image (fun i => cand stem ext (c + 1 + i)) ⊆
      fs.toFinset := by
    intro y hy
    rcases Finset.mem_image.mp hy with ⟨i, hi, rfl⟩
    rw [List.mem_toFinset]
    have hi' := Finset.mem_range.mp hi
    have hmem := hall (1 + i) (by omega) (by omega)
    have heq : c + (1 + i) = c + 1 + i := by omega
    rwa [heq] at hmem
  have hcard := Finset.card_le_card hsub
  rw [Finset.card_image_of_injective _ hinj, Finset.card_range] at hcard
  have := List.toFinset_card_le fs
  omega

theorem conflictLoop_some (fs : List FName) (stem ext : List Char) (base : FName) :
    ∀ fuel c p tbl, (∃ k, 1 ≤ k ∧ k ≤ fuel ∧ cand stem ext (c + k) ∉ fs) →
      (conflictLoop (fuel + 1) fs stem ext p c base tbl).isSome = true := by
  intro fuel
  induction fuel with
  | zero =>
    intro c p tbl h
    obtain ⟨k, hk1, hk0, _⟩ := h
    omega
  | succ fuel ih =>
    intro c p tbl h
    obtain ⟨k, hk1, hkf, hkfree⟩ := h
    rw [conflictLoop]
    by_cases hp : p ∈ fs
    · rw [if_pos hp]
      by_cases h1 : cand stem ext (c + 1) ∈ fs
      · have hk2 : 2 ≤ k := by
          rcases Nat.lt_or_ge k 2 with hlt | hge
          · interval_cases k
            exact absurd h1 hkfree
          · exact hge
        apply ih (c + 1)
        refine ⟨k - 1, by omega, by omega, ?_⟩
        have heq : c + 1 + (k - 1) = c + k := by omega
        rw [heq]
        exact hkfree
      · rw [conflictLoop, if_neg h1]
        rfl
    · rw [if_neg hp]
      rfl

theorem conflictLoop_total (fs : List FName) (new_path : FName) (tbl : Tbl) :
    (handle_filename_conflict fs new_path tbl).isSome = true := by
  unfold handle_filename_conflict
  exact conflictLoop_some fs (splitext new_path).1 (splitext new_path).2 new_path
    (fs.length + 1) ((tblLookup tbl new_path).getD 0) new_path tbl
    (cand_free_exists fs (splitext new_path).1 (splitext new_path).2
      ((tblLookup tbl new_path).getD 0))

theorem conflictLoop_inv (fs : List FName) (stem ext : List Char) (base : FName) :
    ∀ fuel p c tbl res tbl', conflictLoop fuel fs stem ext p c base tbl = some (res, tbl') →
      res ∉ fs ∧ (res = p ∨ (p ∈ fs ∧ ∃ n, c < n ∧ res = cand stem ext n)) := by
  intro fuel
  induction fuel with
  | zero =>
    intro p c tbl res tbl' h
    simp [conflictLoop] at h
  | succ fuel ih =>
    intro p c tbl res tbl' h
    rw [conflictLoop] at h
    by_cases hp : p ∈ fs
    · rw [if_pos hp] at h
      obtain ⟨hres, hcase⟩ := ih _ _ _ _ _ h
      refine ⟨hres, Or.inr ⟨hp, ?_⟩⟩
      rcases hcase with rfl | ⟨_, m, hm, rfl⟩
      · exact ⟨c + 1, by omega, rfl⟩
      · exact ⟨m, by omega, rfl⟩
    · rw [if_neg hp] at h
      have h' := Option.some.inj h
      have h1 : p = res := congrArg Prod.fst h'
      subst h1
      exact ⟨hp, Or.inl rfl⟩

/-- C4: the resolver returns a path that does not exist at the moment of the
check; when the desired path is taken the result appends an underscore and a
counter starting at 1 before the file extension; and the extension of the
result equals the extension of the desired name exactly. -/
theorem C4_resolver_postcondition (fs : List FName) (name : FName) :
    ∃ res tbl, handle_filename_conflict fs name [] = some (res, tbl) ∧
      res ∉ fs ∧
      (res = name ∨ (name ∈ fs ∧ ∃ n, 1 ≤ n ∧
        res = cand (splitext name).1 (splitext name).2 n)) ∧
      (splitext res).2 = (splitext name).2 := by
  have htot := conflictLoop_total fs name []
  rcases hh : handle_filename_conflict fs name [] with _ | ⟨res, tbl⟩
  · rw [hh] at htot
    simp at htot
  · refine ⟨res, tbl, rfl, ?_⟩
    unfold handle_filename_conflict at hh
    obtain ⟨hres, hcase⟩ := conflictLoop_inv fs (splitext name).1 (splitext name).2 name
      (fs.length + 2) name ((tblLookup [] name).getD 0) [] res tbl hh
    have hc0 : (tblLookup ([] : Tbl) name).getD 0 = 0 := rfl
    rw [hc0] at hcase
    refine ⟨hres, ?_, ?_⟩
    · rcases hcase with rfl | ⟨hmem, m, hm, rfl⟩
      · exact Or.inl rfl
      · exact Or.inr ⟨hmem, m, by omega, rfl⟩
    · rcases hcase with rfl | ⟨_, m, _, rfl⟩
      · rfl
      · have hsp := splitext_cand' name m (splitext name).1 (splitext name).2 rfl
        unfold cand
        rw [hsp]

/-- C5 counterexample: the claim says the resolver stops with ConflictExhausted
once a configured maximum attempt count (here 2) is exceeded; on a directory
holding a.txt, a_1.txt and a_2.txt, the spec-modelled capped resolver indeed
exhausts, but the source resolver has no cap and returns a_3.txt successfully,
so the source never fails with ConflictExhausted. -/
theorem C5_no_cap_counterexample :
    resolveSpec 2 fsA nA = none ∧
      handle_filename_conflict fsA nA [] = some (nA3, [(nA, 3)]) := by
  constructor
  · decide
  · decide

/-- C5 amended: the source resolver's retry loop runs until a free path is
found, with no maximum attempt count and no ConflictExhausted failure; it is
nonetheless total on every finite filesystem state, because the candidate
names with distinct counters are pairwise distinct, so fuel fs.length + 2
always suffices for the loop to exit. -/
theorem C5_resolver_terminates (fs : List FName) (name : FName) (conflict_files : Tbl) :
    (handle_filename_conflict fs name conflict_files).isSome = true :=
  conflictLoop_total fs name conflict_files

theorem hashLoop_eq : ∀ fuel (content acc : FContent), content.length ≤ fuel →
    hashLoop fuel content acc = acc ++ content := by
  intro fuel
  induction fuel with
  | zero =>
    intro content acc h
    have hc : content = [] := List.eq_nil_of_length_eq_zero (by omega)
    subst hc
    simp [hashLoop]
  | succ fuel ih =>
    intro content acc h
    cases content with
    | nil => simp [hashLoop]
    | cons x rest =>
      rw [hashLoop, ih (rest.drop 65535) (acc ++ x :: rest.take 65535)
        (by rw [List.length_drop]; simp at h; omega)]
      simp [List.append_assoc, List.take_append_drop]

theorem calculate_file_hash_eq (content : FContent) : calculate_file_hash content = content := by
  unfold calculate_file_hash
  rw [hashLoop_eq (content.length + 1) content [] (by omega)]
  simp

theorem getFileSize_some {dir : Dir} {n : FName} {c : FContent} (h : lookupD dir n = some c) :
    getFileSize dir n = .ok c.length := by
  unfold getFileSize
  rw [h]

theorem fileHash_some {dir : Dir} {n : FName} {c : FContent} (h : lookupD dir n = some c) :
    fileHash dir n = .ok (calculate_file_hash c) := by
  unfold fileHash
  rw [h]

/-- C6: for readable files a and b, check_duplicate_file returns false whenever
the sizes differ (short-circuiting before any hashing), and true whenever the
contents are byte-identical, regardless of size. -/
theorem C6_duplicate_detection (dir : Dir) (a b : FName) (ca cb : FContent)
    (hla : lookupD dir a = some ca) (hlb : lookupD dir b = some cb) :
    (ca.length ≠ cb.length → check_duplicate_file dir a b = .ok false) ∧
      (ca = cb → check_duplicate_file dir a b = .ok true) := by
  constructor
  · intro hne
    unfold check_duplicate_file
    simp only [getFileSize_some hla, getFileSize_some hlb]
    simp [hne]
  · intro hceq
    unfold check_duplicate_file
    simp only [getFileSize_some hla, getFileSize_some hlb,
      fileHash_some hla, fileHash_some hlb]
    subst hceq
    simp [calculate_file_hash_eq]

/-- C6 witness: a size mismatch is reported as not duplicate, and identical
contents are reported as duplicate, on a concrete four-file directory. -/
theorem C6_duplicate_detection_witness :
    check_duplicate_file dirC6 nA nA1 = .ok false ∧
      check_duplicate_file dirC6 nA2 nA3 = .ok true :=
  ⟨(C6_duplicate_detection dirC6 nA nA1 [1] [1, 2] rfl rfl).1 (by decide),
   (C6_duplicate_detection dirC6 nA2 nA3 [5, 6] [5, 6] rfl rfl).2 rfl⟩

/-- C1 (code-bug evidence): the single file "2024-03-05 report.txt", whose
timestamp formats to 2024-03-05, satisfies the spec's already-correct
condition — the sanitized name equals the fresh date prefix concatenated with
the sanitized-and-stripped name — yet the code does not answer
AlreadyCorrect: line 159 passes the stripped name (not the cleaned name) to
has_valid_date_prefix, the desired destination then collides with the file
itself, and the second run renames it to "2024-03-05 report_1.txt". -/
theorem C1_already_correct_code_bug :
    clean_filename nPrefixed =
        datePfxOf ⟨2024, 3, 5⟩ ++ remove_date_pfx (clean_filename nPrefixed) ∧
      rename_file_with_date tsMar5 dirC1 nPrefixed =
        (.renamed nPrefixed nPrefixed1, [(nPrefixed1, [1, 2, 3])]) := by
  constructor
  · decide
  · decide

/-- C2 (code-bug evidence): with source report.txt and a byte-identical
pre-existing "2024-03-05 report.txt", check_duplicate_file does recognise the
duplicate, but rename_file_with_date runs handle_filename_conflict before the
duplicate test, so the resolved path never exists, the duplicate branch is
unreachable, and the outcome is Renamed to "2024-03-05 report_1.txt" with
both copies left in the directory — not DuplicateRemoved with one copy. -/
theorem C2_duplicate_code_bug :
    check_duplicate_file dirC2 nReport nPrefixed = .ok true ∧
      rename_file_with_date tsMar5 dirC2 nReport =
        (.renamed nReport nPrefixed1, [(nPrefixed, [1, 2, 3]), (nPrefixed1, [1, 2, 3])]) := by
  constructor
  · decide
  · decide

theorem renameCore_skipC_inv (ts : FName → Option DateT) (dir : Dir) (name : FName)
    (e : FName) (d' : Dir) (h : renameCore ts dir name = .ok (.skippedConflict e, d')) :
    d' = dir := by
  simp only [renameCore] at h
  repeat' split at h
  all_goals simp_all

theorem restoreCore_skipC_inv (dir : Dir) (name : FName)
    (e : FName) (d' : Dir) (h : restoreCore dir name = .ok (.skippedConflict e, d')) :
    d' = dir := by
  simp only [restoreCore] at h
  repeat' split at h
  all_goals simp_all

theorem restoreCore_skipN_inv (dir : Dir) (name : FName)
    (d' : Dir) (h : restoreCore dir name = .ok (.skippedNotEligible, d')) :
    d' = dir := by
  simp only [restoreCore] at h
  repeat' split at h
  all_goals simp_all

/-- C8: an operation that ends in SkippedConflict (either pipeline) or in
SkippedNotEligible (restore) leaves the directory exactly as it was — no
rename and no deletion happened. -/
theorem C8_skip_frame (ts : FName → Option DateT) (dir : Dir) (name : FName) :
    (∀ e d', rename_file_with_date ts dir name = (.skippedConflict e, d') → d' = dir) ∧
      (∀ d', restore_original_name dir name = (.skippedNotEligible, d') → d' = dir) ∧
      (∀ e d', restore_original_name dir name = (.skippedConflict e, d') → d' = dir) := by
  refine ⟨?_, ?_, ?_⟩
  · intro e d' h
    rcases hc : renameCore ts dir name with ⟨e2, d2⟩ | ⟨o2, d2⟩
    · simp only [rename_file_with_date, hc] at h
      simp at h
    · simp only [rename_file_with_date, hc] at h
      simp only [Prod.mk.injEq] at h
      obtain ⟨h1, h2⟩ := h
      subst h1
      subst h2
      exact renameCore_skipC_inv ts dir name e _ hc
  · intro d' h
    rcases hc : restoreCore dir name with ⟨e2, d2⟩ | ⟨o2, d2⟩
    · simp only [restore_original_name, hc] at h
      simp at h
    · simp only [restore_original_name, hc] at h
      simp only [Prod.mk.injEq] at h
      obtain ⟨h1, h2⟩ := h
      subst h1
      subst h2
      exact restoreCore_skipN_inv dir name _ hc
  · intro e d' h
    rcases hc : restoreCore dir name with ⟨e2, d2⟩ | ⟨o2, d2⟩
    · simp only [restore_original_name, hc] at h
      simp at h
    · simp only [restore_original_name, hc] at h
      simp only [Prod.mk.injEq] at h
      obtain ⟨h1, h2⟩ := h
      subst h1
      subst h2
      exact restoreCore_skipC_inv dir name e _ hc

/-- C8 witness: restoring the unprefixed report.txt is SkippedNotEligible and
leaves the one-file directory unchanged. -/
theorem C8_skip_frame_witness :
    restore_original_name dirC8 nReport = (.skippedNotEligible, dirC8) ∧ dirC8 = dirC8 := by
  constructor
  · decide
  · exact (C8_skip_frame tsNone dirC8 nReport).2.1 dirC8 (by decide)

theorem renameFailed_of_error (ts : FName → Option DateT) (dir : Dir) (name : FName)
    (e : List Char) (d' : Dir) (h : renameCore ts dir name = .error (e, d')) :
    rename_file_with_date ts dir name = (.failed e, d') := by
  unfold rename_file_with_date
  rw [h]

theorem restoreFailed_of_error (dir : Dir) (name : FName)
    (e : List Char) (d' : Dir) (h : restoreCore dir name = .error (e, d')) :
    restore_original_name dir name = (.failed e, d') := by
  unfold restore_original_name
  rw [h]

theorem processAll_length (ts : FName → Option DateT) :
    ∀ (files : List FName) (dir : Dir), (processAll ts dir files).1.length = files.length := by
  intro files
  induction files with
  | nil =>
    intro dir
    simp [processAll]
  | cons f rest ih =>
    intro dir
    simp [processAll, ih]

/-- C9: every error raised inside a per-file pipeline is caught and becomes
exactly one Failed outcome carrying the reason (for both pipelines), and the
traversal yields exactly one outcome per file, so a failing file never stops
the processing of the remaining files. -/
theorem C9_error_containment (ts : FName → Option DateT) (dir : Dir) (files : List FName)
    (name : FName) (e : List Char) (d' : Dir) :
    (processAll ts dir files).1.length = files.length ∧
      (renameCore ts dir name = .error (e, d') →
        rename_file_with_date ts dir name = (.failed e, d')) ∧
      (restoreCore dir name = .error (e, d') →
        restore_original_name dir name = (.failed e, d')) :=
  ⟨processAll_length ts files dir,
   fun h => renameFailed_of_error ts dir name e d' h,
   fun h => restoreFailed_of_error dir name e d' h⟩

/-- C9 witness: a file without a supplied timestamp fails with the caught
reason and the directory untouched, as does restoring a missing file. -/
theorem C9_error_containment_witness :
    renameCore tsNone dirC8 nReport = .error (errNoTime, dirC8) ∧
      rename_file_with_date tsNone dirC8 nReport = (.failed errNoTime, dirC8) ∧
      restoreCore [] nBPrefixed = .error (errNoFile, []) ∧
      restore_original_name [] nBPrefixed = (.failed errNoFile, []) := by
  refine ⟨rfl, ?_, rfl, ?_⟩
  · exact (C9_error_containment tsNone dirC8 [] nReport errNoTime dirC8).2.1 rfl
  · exact (C9_error_containment tsNone [] [] nBPrefixed errNoFile []).2.2 rfl

theorem conflictLoop_notmem {fuel : Nat} {fs : List FName} {stem ext : List Char}
    {p : FName} {c : Nat} {base : FName} {tbl : Tbl} (hfuel : fuel ≠ 0) (hp : p ∉ fs) :
    conflictLoop fuel fs stem ext p c base tbl = some (p, tbl) := by
  cases fuel with
  | zero => exact absurd rfl hfuel
  | succ f => rw [conflictLoop, if_neg hp]

/-- C10: for an eligible file (cleaned name matches the date pattern) whose
stripped target is free, RestoreName renames it to the prefix-stripped
*sanitized* original name — remove_yy_mm_dd_pfx (clean_filename name) — not
to the original name minus its prefix. -/
theorem C10_restore_sanitizes (dir : Dir) (name : FName) (c : FContent)
    (hl : lookupD dir name = some c)
    (he : has_yy_mm_dd_pfx (clean_filename name) = true)
    (hf : remove_yy_mm_dd_pfx (clean_filename name) ∉ fsNames dir) :
    restore_original_name dir name =
      (.renamed name (remove_yy_mm_dd_pfx (clean_filename name)),
        eraseFile (eraseFile dir name) (remove_yy_mm_dd_pfx (clean_filename name)) ++
          [(remove_yy_mm_dd_pfx (clean_filename name), c)]) := by
  have hhc : handle_filename_conflict (fsNames dir)
      (remove_yy_mm_dd_pfx (clean_filename name)) [] =
      some (remove_yy_mm_dd_pfx (clean_filename name), []) := by
    unfold handle_filename_conflict
    exact conflictLoop_notmem (by omega) hf
  have hren : fsRename dir name (remove_yy_mm_dd_pfx (clean_filename name)) =
      .ok (eraseFile (eraseFile dir name) (remove_yy_mm_dd_pfx (clean_filename name)) ++
        [(remove_yy_mm_dd_pfx (clean_filename name), c)]) := by
    unfold fsRename
    rw [hl]
  have hpe : pathExists dir (remove_yy_mm_dd_pfx (clean_filename name)) = false := by
    unfold pathExists
    exact decide_eq_false hf
  have hcore : restoreCore dir name =
      .ok (.renamed name (remove_yy_mm_dd_pfx (clean_filename name)),
        eraseFile (eraseFile dir name) (remove_yy_mm_dd_pfx (clean_filename name)) ++
          [(remove_yy_mm_dd_pfx (clean_filename name), c)]) := by
    simp only [restoreCore, he, Bool.not_true, hhc, hpe, hren]
    simp
  unfold restore_original_name
  rw [hcore]

/-- C10 witness: restoring "2024-03-05 a?b.txt" yields the sanitized
"a_b.txt", which differs from the original name minus its prefix, so
RestoreName is not an exact inverse on names with illegal characters. -/
theorem C10_restore_sanitizes_witness :
    restore_original_name dirC10 nQ = (.renamed nQ nAB, [(nAB, [7])]) ∧
      nAB ≠ remove_yy_mm_dd_pfx nQ := by
  constructor
  · rw [C10_restore_sanitizes dirC10 nQ [7] rfl (by decide) (by decide)]
    decide
  · decide
